import Mathlib

/-!
Verification of the PABL knowledge-base revision search (`kb.py`) and its
memoization layer (`cache.py`).

The Python code is shallowly embedded: the abductive revision search of
`KBBase` becomes a family of pure Lean functions over an abstract knowledge
base, and the class-level LRU cache of `cache.py` becomes an explicit state
type with a step function.  Python exceptions (the `UnboundLocalError` that
`_abduce_by_search` can hit, and the `KeyError` that the eviction path of
`Cache.get_from_dict` can hit) are modelled by returning `none`.
-/

namespace PABL

/-- Embedding of the data a `KBBase` instance carries that the revision search
reads: the declared label space `pseudo_label_list`, the user-supplied oracle
`logic_forward` (its `None` result is `Option.none`; a context-insensitive
oracle simply ignores the `X` argument, which is how `_num_args == 1`
instances behave), and `eqCheck`, the non-`None` branch of
`KBBase._check_equal` (numeric tolerance `abs (r - y) <= max_err`, or
structural equality, depending on the result type). -/
structure KB (L R X : Type) where
  pseudo_label_list : List L
  logic_forward : List L → X → Option R
  eqCheck : R → R → Bool

variable {L R X : Type}

/-- Embedding of `KBBase._check_equal`: a `None` reasoning result never
matches; otherwise defer to the tolerance/equality check. -/
def KB.check_equal (kb : KB L R X) : Option R → R → Bool
  | none, _ => false
  | some r, y => kb.eqCheck r y

/-- Embedding of `itertools.product(pool, repeat := k)` as used in
`revise_at_idx`: all length-`k` tuples over `pool`, first coordinate varying
slowest. -/
def productRepeat (pool : List L) : ℕ → List (List L)
  | 0 => [[]]
  | k + 1 => pool.flatMap fun a => (productRepeat pool k).map (a :: ·)

/-- Embedding of the revision loop
`for i, idx in enumerate(revision_idx): candidate[idx] = c[i]`:
overwrite `pl` at the positions `idxs` with the values `vs`, pairwise. -/
def applyRevision : List L → List ℕ → List L → List L
  | pl, [], _ => pl
  | pl, _ :: _, [] => pl
  | pl, idx :: idxs, v :: vs => applyRevision (pl.set idx v) idxs vs

/-- Embedding of `itertools.combinations(xs, k)`: all length-`k` sublists of
`xs`, in lexicographic order. -/
def combinationsAux : List ℕ → ℕ → List (List ℕ)
  | _, 0 => [[]]
  | [], _ + 1 => []
  | a :: as, k + 1 => ((combinationsAux as k).map (a :: ·)) ++ combinationsAux as (k + 1)

/-- Embedding of `KBBase.revise_at_idx`: try every assignment of label-space
values at the positions `idxs`, keep the candidates whose reasoning result
passes `_check_equal`, returning the kept candidates and their (raw, as
Python appends them) reasoning results in generation order. -/
def KB.revise_at_idx (kb : KB L R X) (pl : List L) (y : R) (x : X) (idxs : List ℕ) :
    List (List L) × List (Option R) :=
  let pairs := (productRepeat kb.pseudo_label_list idxs.length).filterMap fun c =>
    if kb.check_equal (kb.logic_forward (applyRevision pl idxs c) x) y then
      some (applyRevision pl idxs c, kb.logic_forward (applyRevision pl idxs c) x)
    else none
  (pairs.map Prod.fst, pairs.map Prod.snd)

/-- Embedding of `KBBase._revision`: run `revise_at_idx` over every index set
of size `k` (in `combinations` order) and concatenate the results. -/
def KB.revision (kb : KB L R X) (k : ℕ) (pl : List L) (y : R) (x : X) :
    List (List L) × List (Option R) :=
  ((combinationsAux (List.range pl.length) k).flatMap fun idxs =>
      (kb.revise_at_idx pl y x idxs).1,
   (combinationsAux (List.range pl.length) k).flatMap fun idxs =>
      (kb.revise_at_idx pl y x idxs).2)

/-- Outcome of the first loop of `_abduce_by_search`.  `found` is the `break`
with `min_revision_num` bound; `infeasible` is the early `return [], []`;
`unbound` is falling off `range(len(pseudo_label) + 1)` without a match, after
which the second loop raises `UnboundLocalError` on `min_revision_num`. -/
inductive FirstOutcome (L R : Type) where
  | found (min_k : ℕ) (cands : List (List L)) (results : List (Option R))
  | infeasible
  | unbound

/-- Embedding of the first loop of `KBBase._abduce_by_search`: walk the levels
`ks`, accumulating candidates; break at the first non-empty level, or return
`infeasible` as soon as a level `k ≥ max_revision_num` produced nothing. -/
def KB.searchLevels (kb : KB L R X) (pl : List L) (y : R) (x : X) (maxRev : ℤ) :
    List ℕ → List (List L) → List (Option R) → FirstOutcome L R
  | [], _, _ => .unbound
  | k :: ks, cs, rs =>
    let cs2 := cs ++ (kb.revision k pl y x).1
    let rs2 := rs ++ (kb.revision k pl y x).2
    if 0 < cs2.length then .found k cs2 rs2
    else if maxRev ≤ (k : ℤ) then .infeasible
    else kb.searchLevels pl y x maxRev ks cs2 rs2

/-- Embedding of the second loop of `KBBase._abduce_by_search`: explore the
extra levels `ks`, returning the accumulation early once a level exceeds
`max_revision_num`. -/
def KB.moreLevels (kb : KB L R X) (pl : List L) (y : R) (x : X) (maxRev : ℤ) :
    List ℕ → List (List L) → List (Option R) → List (List L) × List (Option R)
  | [], cs, rs => (cs, rs)
  | k :: ks, cs, rs =>
    if maxRev < (k : ℤ) then (cs, rs)
    else kb.moreLevels pl y x maxRev ks (cs ++ (kb.revision k pl y x).1)
      (rs ++ (kb.revision k pl y x).2)

/-- Embedding of `KBBase._abduce_by_search`: first loop over levels
`0 .. len(pseudo_label)`, then the `require_more_revision` extra levels
`min_k + 1 .. min_k + require_more_revision`.  `none` models the
`UnboundLocalError` raised when the first loop exhausts all levels without a
match (possible when `max_revision_num > len(pseudo_label)`). -/
def KB.abduce_by_search (kb : KB L R X) (pl : List L) (y : R) (x : X)
    (maxRev extra : ℤ) : Option (List (List L) × List (Option R)) :=
  match kb.searchLevels pl y x maxRev (List.range (pl.length + 1)) [] [] with
  | .unbound => none
  | .infeasible => some ([], [])
  | .found minK cs rs =>
      some (kb.moreLevels pl y x maxRev ((List.range extra.toNat).map (minK + 1 + ·)) cs rs)

/-- Embedding of `KBBase.abduce_candidates`, which just delegates to
`_abduce_by_search`. -/
def KB.abduce_candidates (kb : KB L R X) (pl : List L) (y : R) (x : X)
    (maxRev extra : ℤ) : Option (List (List L) × List (Option R)) :=
  kb.abduce_by_search pl y x maxRev extra

/-- Embedding of the cache-arity logic in `KBBase.__init__`: given the
configured `use_cache` flag and `_num_args` (the number of parameters of
`logic_forward` beyond `self`: 1 = candidate only, 2 = candidate plus
context), return the resulting `use_cache` value and whether the warning was
emitted.  The source disables caching precisely when `_num_args == 2`. -/
def initUseCache (use_cache : Bool) (num_args : ℕ) : Bool × Bool :=
  if num_args = 2 ∧ use_cache = true then (false, true) else (use_cache, false)

/-- Positions (in `List.range a.length`) where the two sequences disagree. -/
def diffIdx [DecidableEq L] (a b : List L) : List ℕ :=
  (List.range a.length).filter fun i => decide (a[i]? ≠ b[i]?)

/-- Number of positions where the two sequences disagree. -/
def diffCount [DecidableEq L] (a b : List L) : ℕ := (diffIdx a b).length

/-- Tolerance check `abs (r - y) <= 1e-10` of `_check_equal` at the default
`max_err`, on integer-valued reasoning results, written with the denominator
cleared so that it is kernel-computable; `tolCheck_iff` below proves it equal
to the rational-tolerance comparison taken from the source. -/
def tolCheck (r y : ℤ) : Bool := decide (10000000000 * |r - y| ≤ 1)

/-- Concrete knowledge base used by the spec scenarios: label space
`[0, 1]`, oracle summing the sequence (ignoring the context), default
tolerance `max_err = 1e-10`. -/
def kbSum : KB ℤ ℤ Unit :=
  { pseudo_label_list := [0, 1]
    logic_forward := fun c _ => some c.sum
    eqCheck := fun r y => tolCheck r y }

/-- Concrete knowledge base with the same label space but a different oracle
(maximum of the sequence), used to exhibit cross-instance cache reuse. -/
def kbMax : KB ℤ ℤ Unit :=
  { pseudo_label_list := [0, 1]
    logic_forward := fun c _ => some (c.foldl max 0)
    eqCheck := fun r y => tolCheck r y }

/-- Node of the circular doubly linked recency list of `cache.py`.  The
Python links are mutable aliased 4-slot lists; here each link is a record
tagged with a unique `id` so that the dictionary (which in Python stores
references to links) can refer to links by `id`. -/
structure Link (K V : Type) where
  id : ℕ
  key : K
  val : V

/-- View of a `KBBase` instance as the cache layer sees it: the attributes
`use_cache`, `key_func` and `cache_size` read by `wrapper` / `init_cache`
(`cache_size` is `some n` for an `int` configuration and `none` for the
non-`int` case that skips the `full` update), plus the remaining state of the
instance (`payload`, e.g. its knowledge base) that the wrapped function
reads. -/
structure Owner (V0 K F : Type) where
  use_cache : Bool
  key_func : V0 → K
  cache_size : Option ℤ
  payload : F

/-- Cache keys as built by `Cache.get_from_dict`:
`(key_func(pred_pseudo_label), key_func(y), max_revision_num,
require_more_revision)`.  The context argument `x` does not appear. -/
abbrev CKey (K : Type) := K × K × ℤ × ℤ

/-- State of one `Cache` object of `cache.py`.  `cache_dict` is the Python
dict as an association list in insertion order, mapping a key to the `id` of
its link; `ring` is the circular list without its root sentinel, ordered from
`root.next` (least recently used) to `root.prev` (most recently used);
`nextId` is the supply of fresh link ids.  The remaining fields are the
attributes of the same names (`cache` is the write-only flag set by
`init_cache`). -/
structure Cache (V0 K V : Type) where
  has_init : Bool
  cache : Bool
  cache_dict : List (CKey K × ℕ)
  key_func : Option (V0 → K)
  max_size : Option ℤ
  hits : ℕ
  misses : ℕ
  full : Bool
  ring : List (Link (CKey K) V)
  nextId : ℕ

variable {V0 K V F : Type}

/-- State of a `Cache` right after `Cache.__init__`: `has_init = False`,
`cache = False`, empty dict, `key_func = None`, `max_size = 0`, zero
counters, `full = False`, empty recency list. -/
def Cache.initial : Cache V0 K V :=
  { has_init := false, cache := false, cache_dict := [], key_func := none,
    max_size := some 0, hits := 0, misses := 0, full := false, ring := [],
    nextId := 0 }

/-- Embedding of `Cache.clear_cache`: `self.cache_dict.clear()` and nothing
else — `full`, the recency ring and the counters are left as they are. -/
def Cache.clear_cache (c : Cache V0 K V) : Cache V0 K V :=
  { c with cache_dict := [] }

/-- Embedding of `Cache.init_cache`: idempotent (guarded by `has_init`);
binds the key function and capacity from the "obj" argument and resets the
dict, counters and recency list. -/
def Cache.init_cache (c : Cache V0 K V) (obj : Owner V0 K F) : Cache V0 K V :=
  if c.has_init then c
  else
    { has_init := true, cache := true, cache_dict := [],
      key_func := some obj.key_func, max_size := obj.cache_size,
      hits := 0, misses := 0, full := false, ring := [], nextId := 0 }

/-- Lookup in a Python dict modelled as an association list (keys unique in
all states the code reaches). -/
def assocFind [DecidableEq α] (k : α) : List (α × β) → Option β
  | [] => none
  | (k2, v) :: t => if k2 = k then some v else assocFind k t

/-- Deletion from a Python dict modelled as an association list: removes the
first (with unique keys: only) binding of `k`. -/
def assocErase [DecidableEq α] (k : α) : List (α × β) → List (α × β)
  | [] => []
  | (k2, v) :: t => if k2 = k then t else (k2, v) :: assocErase k t

/-- Embedding of `Cache.get_from_dict`.  The wrapped function `func` is
`_abduce_by_search`, abstracted as any function of the owning instance and
the five positional arguments; its `none` models an exception inside the
wrapped call, which propagates (no entry is stored).  The overall `none`
result models any exception escaping `get_from_dict`; in particular the
`del self.cache_dict[oldkey]` of the eviction path raises `KeyError` when
`oldkey` is not in the dict, which is the `assocFind oldest.key = none`
branch (and the `c.ring = []` branch, where `oldkey` is the just-written new
key, also a guaranteed `KeyError`).  On a hit the found link moves to the
most-recently-used end of the ring and `hits` is incremented; on a miss
`misses` is incremented, the result is computed, and it is inserted at the
most-recently-used end, evicting the least-recently-used link when `full`
(Python increments `misses` before calling the function; a call that ends in
an exception discards the state here, so the increment is folded into the
successful branches). -/
def Cache.get_from_dict [DecidableEq K]
    (func : Owner V0 K F → V0 → V0 → X → ℤ → ℤ → Option V)
    (c : Cache V0 K V) (obj : Owner V0 K F) (pred_pseudo_label y : V0) (x : X)
    (max_revision_num require_more_revision : ℤ) : Option (V × Cache V0 K V) :=
  match c.key_func with
  | none => none
  | some kf =>
    let cache_key : CKey K :=
      (kf pred_pseudo_label, kf y, max_revision_num, require_more_revision)
    match assocFind cache_key c.cache_dict with
    | some linkId =>
      match c.ring.find? fun lk => decide (lk.id = linkId) with
      | none => none
      | some link =>
        some (link.val,
          { c with ring := (c.ring.filter fun lk => decide (¬ lk.id = linkId)) ++ [link],
                   hits := c.hits + 1 })
    | none =>
      match func obj pred_pseudo_label y x max_revision_num require_more_revision with
      | none => none
      | some result =>
        if c.full then
          match c.ring with
          | [] => none
          | oldest :: rest =>
            match assocFind oldest.key c.cache_dict with
            | none => none
            | some _ =>
              some (result,
                { c with
                  misses := c.misses + 1,
                  cache_dict := assocErase oldest.key c.cache_dict ++ [(cache_key, c.nextId)],
                  ring := rest ++ [⟨c.nextId, cache_key, result⟩],
                  nextId := c.nextId + 1 })
        else
          some (result,
            { c with
              misses := c.misses + 1,
              cache_dict := c.cache_dict ++ [(cache_key, c.nextId)],
              ring := c.ring ++ [⟨c.nextId, cache_key, result⟩],
              nextId := c.nextId + 1,
              full := match c.max_size with
                      | some n => decide ((c.cache_dict.length + 1 : ℤ) ≥ n)
                      | none => c.full })

/-- Embedding of the `wrapper` closure produced by the `abl_cache` decorator:
if the owning instance has `use_cache` set, initialize (idempotently) and go
through the cache, otherwise call the wrapped function directly, leaving the
cache state untouched.  The `Cache` object is created once per decorated
function, so one state is threaded through the calls of every instance. -/
def ablWrapper [DecidableEq K]
    (func : Owner V0 K F → V0 → V0 → X → ℤ → ℤ → Option V)
    (c : Cache V0 K V) (obj : Owner V0 K F) (pl y : V0) (x : X) (m e : ℤ) :
    Option (V × Cache V0 K V) :=
  if obj.use_cache then
    (c.init_cache obj).get_from_dict func obj pl y x m e
  else (func obj pl y x m e).map fun v => (v, c)

/-- States of the decorator-level cache reachable by a sequence of successful
wrapper calls (by owners satisfying `allowed`) and `clear_cache` calls,
starting from the state `Cache.__init__` leaves. -/
inductive CacheReach [DecidableEq K]
    (func : Owner V0 K F → V0 → V0 → X → ℤ → ℤ → Option V)
    (allowed : Owner V0 K F → Prop) : Cache V0 K V → Prop where
  | initial : CacheReach func allowed Cache.initial
  | step : ∀ {c c' : Cache V0 K V} {obj : Owner V0 K F} {pl y : V0} {x : X} {m e : ℤ} {v : V},
      allowed obj → CacheReach func allowed c →
      ablWrapper func c obj pl y x m e = some (v, c') → CacheReach func allowed c'
  | clear : ∀ {c : Cache V0 K V}, CacheReach func allowed c →
      CacheReach func allowed c.clear_cache

/-- Consistency invariant tying a cache state to one owning instance `obj`:
the bound key function is `obj`'s (or not yet bound); dictionary keys are
unique; ring link ids are unique and below the id supply; and every
dictionary entry points (by id) to a ring link holding the entry's key and a
value that the wrapped function returns for every argument tuple mapping to
that key — for any context, since the key ignores the context. -/
def CacheInv [DecidableEq K] (func : Owner V0 K F → V0 → V0 → X → ℤ → ℤ → Option V)
    (obj : Owner V0 K F) (c : Cache V0 K V) : Prop :=
  (c.key_func = none ∨ c.key_func = some obj.key_func) ∧
  (c.cache_dict.map Prod.fst).Nodup ∧
  (c.ring.map Link.id).Nodup ∧
  (∀ lk ∈ c.ring, lk.id < c.nextId) ∧
  (∀ p ∈ c.cache_dict, ∃ lk ∈ c.ring, lk.id = p.2 ∧ lk.key = p.1 ∧
    ∀ (pl2 y2 : V0) (m2 e2 : ℤ) (x2 : X),
      p.1 = (obj.key_func pl2, obj.key_func y2, m2, e2) →
      func obj pl2 y2 x2 m2 e2 = some lk.val)

/-- Cache state after one `addFunc` lookup (`1`, `2`, context `5`, bounds
`0, 0`) through `objAdd` from the fresh state. -/
def addState1 : Cache ℤ ℤ ℤ :=
  ⟨true, true, [((1, 2, 0, 0), 0)], some id, some 4096, 0, 1, false,
    [⟨0, (1, 2, 0, 0), 3⟩], 1⟩

/-- Cache state after a further hit on the single entry of `addState1`. -/
def addState2 : Cache ℤ ℤ ℤ :=
  ⟨true, true, [((1, 2, 0, 0), 0)], some id, some 4096, 1, 1, false,
    [⟨0, (1, 2, 0, 0), 3⟩], 1⟩

/-- The wrapped `_abduce_by_search`, as the decorator sees it on the concrete
integer knowledge bases: the owning instance carries its `KB` as payload, the
pseudo-label sequence and ground truth arrive as dynamically typed values
(`Sum.inl` a sequence, `Sum.inr` a scalar). -/
def searchFunc : Owner (List ℤ ⊕ ℤ) (List ℤ ⊕ ℤ) (KB ℤ ℤ Unit) →
    (List ℤ ⊕ ℤ) → (List ℤ ⊕ ℤ) → Unit → ℤ → ℤ → Option (List (List ℤ) × List (Option ℤ))
  | obj, Sum.inl pl, Sum.inr y, x, m, e => obj.payload.abduce_by_search pl y x m e
  | _, _, _, _, _, _ => none

/-- Instance owning `kbSum`, caching enabled with the default capacity. -/
def objSum : Owner (List ℤ ⊕ ℤ) (List ℤ ⊕ ℤ) (KB ℤ ℤ Unit) :=
  { use_cache := true, key_func := id, cache_size := some 4096, payload := kbSum }

/-- Instance owning `kbMax`, caching enabled with the default capacity. -/
def objMax : Owner (List ℤ ⊕ ℤ) (List ℤ ⊕ ℤ) (KB ℤ ℤ Unit) :=
  { use_cache := true, key_func := id, cache_size := some 4096, payload := kbMax }

/-- A context-insensitive wrapped function over scalar arguments, used for
the concrete cache traces. -/
def idFunc : Owner ℤ ℤ Unit → ℤ → ℤ → Unit → ℤ → ℤ → Option ℤ :=
  fun _ pl _ _ _ _ => some pl

/-- Owner with cache capacity 1, used for the `clear_cache` interaction. -/
def objCap1 : Owner ℤ ℤ Unit :=
  { use_cache := true, key_func := id, cache_size := some 1, payload := () }

/-- Owner with cache capacity 0, used to show one entry is still stored. -/
def objCap0 : Owner ℤ ℤ Unit :=
  { use_cache := true, key_func := id, cache_size := some 0, payload := () }

/-- Cache state after one lookup (`pseudo_label = 1`, `y = 1`, bounds `0, 0`)
through `objCap0` from the fresh state: one entry stored, `full` already
true because the capacity is 0. -/
def capZeroState1 : Cache ℤ ℤ ℤ :=
  ⟨true, true, [((1, 1, 0, 0), 0)], some id, some 0, 0, 1, true,
    [⟨0, (1, 1, 0, 0), 1⟩], 1⟩

/-- Cache state after a second, key-distinct lookup through `objCap0`: the
previous entry was evicted, exactly one entry is retained. -/
def capZeroState2 : Cache ℤ ℤ ℤ :=
  ⟨true, true, [((2, 2, 0, 0), 1)], some id, some 0, 0, 2, true,
    [⟨1, (2, 2, 0, 0), 2⟩], 2⟩

/-- A wrapped function whose result depends on the context argument only
through nothing at all (the context type is `ℤ` and is ignored), used for the
key-exclusion and transparency witnesses. -/
def addFunc : Owner ℤ ℤ Unit → ℤ → ℤ → ℤ → ℤ → ℤ → Option ℤ :=
  fun _ pl y _ m e => some (pl + y + m + e)

/-- Owner for `addFunc` with the default capacity. -/
def objAdd : Owner ℤ ℤ Unit :=
  { use_cache := true, key_func := id, cache_size := some 4096, payload := () }

/-- Faithfulness of `tolCheck`: it decides exactly the source comparison
`abs (reasoning_result - y) <= 1e-10` read over the rationals. -/
theorem tolCheck_iff (r y : ℤ) : tolCheck r y = true ↔ |(r : ℚ) - (y : ℚ)| ≤ 1 / 10000000000 := by
  rw [tolCheck, decide_eq_true_iff,
    le_div_iff₀ (by norm_num : (0:ℚ) < 10000000000), ← Int.cast_sub, ← Int.cast_abs]
  have h1 : ((10000000000 : ℚ)) = ((10000000000 : ℤ) : ℚ) := by norm_num
  have h2 : ((1 : ℚ)) = ((1 : ℤ) : ℚ) := by norm_num
  rw [h1, h2, ← Int.cast_mul, Int.cast_le]
  constructor
  · intro h; linarith
  · intro h; linarith

/-- Characterization of `productRepeat`: exactly the length-`k` lists over
the pool. -/
theorem mem_productRepeat {pool : List L} {k : ℕ} {c : List L} :
    c ∈ productRepeat pool k ↔ c.length = k ∧ ∀ v ∈ c, v ∈ pool := by
  induction k generalizing c with
  | zero =>
    simp only [productRepeat, List.mem_singleton]
    constructor
    · rintro rfl; simp
    · rintro ⟨h, -⟩; exact List.length_eq_zero.mp h
  | succ k ih =>
    simp only [productRepeat, List.mem_flatMap, List.mem_map]
    constructor
    · rintro ⟨a, ha, t, ht, rfl⟩
      obtain ⟨hlen, hmem⟩ := ih.mp ht
      refine ⟨by simp [hlen], ?_⟩
      intro v hv
      rcases List.mem_cons.mp hv with rfl | hv
      · exact ha
      · exact hmem v hv
    · rintro ⟨hlen, hmem⟩
      cases c with
      | nil => simp at hlen
      | cons a t =>
        refine ⟨a, hmem a (List.mem_cons_self a t), t, ih.mpr ⟨by simpa using hlen, ?_⟩, rfl⟩
        intro v hv
        exact hmem v (List.mem_cons_of_mem a hv)

/-- Characterization of `combinationsAux`: exactly the length-`k` sublists
(preserving order). -/
theorem mem_combinationsAux {xs : List ℕ} {k : ℕ} {l : List ℕ} :
    l ∈ combinationsAux xs k ↔ List.Sublist l xs ∧ l.length = k := by
  induction xs generalizing k l with
  | nil =>
    cases k with
    | zero =>
      simp only [combinationsAux, List.mem_singleton]
      constructor
      · rintro rfl; exact ⟨List.Sublist.refl [], rfl⟩
      · rintro ⟨h, -⟩; exact List.sublist_nil.mp h
    | succ k =>
      simp only [combinationsAux, List.not_mem_nil, false_iff, not_and]
      intro h
      rw [List.sublist_nil.mp h]
      simp
  | cons a as ih =>
    cases k with
    | zero =>
      simp only [combinationsAux, List.mem_singleton]
      constructor
      · rintro rfl; exact ⟨List.nil_sublist _, rfl⟩
      · rintro ⟨-, h⟩; exact List.length_eq_zero.mp h
    | succ k =>
      simp only [combinationsAux, List.mem_append, List.mem_map]
      constructor
      · rintro (⟨t, ht, rfl⟩ | h)
        · obtain ⟨hsub, hlen⟩ := ih.mp ht
          exact ⟨List.Sublist.cons₂ a hsub, by simp [hlen]⟩
        · obtain ⟨hsub, hlen⟩ := ih.mp h
          exact ⟨hsub.cons a, hlen⟩
      · rintro ⟨hsub, hlen⟩
        rcases List.sublist_cons_iff.mp hsub with h | ⟨r, rfl, hr⟩
        · exact Or.inr (ih.mpr ⟨h, hlen⟩)
        · exact Or.inl ⟨r, ih.mpr ⟨hr, by simpa using hlen⟩, rfl⟩

/-- `applyRevision` preserves the sequence length. -/
theorem length_applyRevision (pl : List L) (idxs : List ℕ) (vs : List L) :
    (applyRevision pl idxs vs).length = pl.length := by
  induction idxs generalizing pl vs with
  | nil => rw [applyRevision]
  | cons i is ih =>
    cases vs with
    | nil => rw [applyRevision]
    | cons v vt => rw [applyRevision, ih, List.length_set]

/-- Positions not revised keep the original value. -/
theorem applyRevision_getElem?_not_mem {pl : List L} {idxs : List ℕ} {vs : List L} {i : ℕ}
    (h : i ∉ idxs) : (applyRevision pl idxs vs)[i]? = pl[i]? := by
  induction idxs generalizing pl vs with
  | nil => rw [applyRevision]
  | cons j js ih =>
    cases vs with
    | nil => rw [applyRevision]
    | cons v vt =>
      rw [applyRevision, ih (fun hm => h (List.mem_cons_of_mem j hm)),
        List.getElem?_set_ne]
      exact fun hj => h (hj ▸ List.mem_cons_self j js)

/-- Every position of a revised sequence holds the original value or one of
the written values. -/
theorem applyRevision_getElem?_cases (pl : List L) (idxs : List ℕ) (vs : List L) (i : ℕ) :
    (applyRevision pl idxs vs)[i]? = pl[i]? ∨
      ∃ v ∈ vs, (applyRevision pl idxs vs)[i]? = some v := by
  induction idxs generalizing pl vs with
  | nil => rw [applyRevision]; exact Or.inl rfl
  | cons j js ih =>
    cases vs with
    | nil => rw [applyRevision]; exact Or.inl rfl
    | cons v vt =>
      rw [applyRevision]
      rcases ih (pl.set j v) vt with h | ⟨w, hw, h⟩
      · by_cases hij : j = i
        · subst hij
          by_cases hj : j < pl.length
          · refine Or.inr ⟨v, List.mem_cons_self v vt, ?_⟩
            rw [h, List.getElem?_set_self hj]
          · refine Or.inl ?_
            rw [h]
            rw [List.getElem?_eq_none (by simpa using Nat.le_of_not_lt hj),
              List.getElem?_eq_none (Nat.le_of_not_lt hj)]
        · rw [h, List.getElem?_set_ne hij]
          exact Or.inl rfl
      · exact Or.inr ⟨w, List.mem_cons_of_mem v hw, h⟩

/-- Every value of a revised sequence comes from the original sequence or
from the written values. -/
theorem mem_applyRevision {pl : List L} {idxs : List ℕ} {vs : List L} {v : L}
    (h : v ∈ applyRevision pl idxs vs) : v ∈ pl ∨ v ∈ vs := by
  induction idxs generalizing pl vs with
  | nil => rw [applyRevision] at h; exact Or.inl h
  | cons j js ih =>
    cases vs with
    | nil => rw [applyRevision] at h; exact Or.inl h
    | cons w wt =>
      rw [applyRevision] at h
      rcases ih h with h2 | h2
      · rcases List.mem_or_eq_of_mem_set h2 with h3 | rfl
        · exact Or.inl h3
        · exact Or.inr (List.mem_cons_self v wt)
      · exact Or.inr (List.mem_cons_of_mem w h2)

/-- Reconstruction: a sequence `c` that agrees with `pl` outside a set of
positions `D` (all in bounds, without duplicates) is produced by
`applyRevision` from some value list read off `c` at those positions. -/
theorem applyRevision_reconstruct {c : List L} :
    ∀ (D : List ℕ) (pl : List L), D.Nodup → (∀ i ∈ D, i < pl.length) →
      pl.length = c.length → (∀ i : ℕ, i ∈ D ∨ getElem? pl i = getElem? c i) →
      ∃ vs : List L, vs.length = D.length ∧
        (∀ v ∈ vs, ∃ i ∈ D, getElem? c i = some v) ∧ applyRevision pl D vs = c := by
  intro D
  induction D with
  | nil =>
    intro pl _ _ hlen hout
    refine ⟨[], rfl, by simp, ?_⟩
    rw [applyRevision]
    refine List.ext_getElem? fun i => ?_
    rcases hout i with h | h
    · exact absurd h (List.not_mem_nil i)
    · exact h
  | cons i0 D ih =>
    intro pl hnd hbound hlen hout
    have hi0 : i0 < pl.length := hbound i0 (List.mem_cons_self i0 D)
    have hi0c : i0 < c.length := hlen ▸ hi0
    obtain ⟨v0, hv0⟩ : ∃ v0, getElem? c i0 = some v0 :=
      ⟨c.get ⟨i0, hi0c⟩, List.getElem?_eq_getElem hi0c⟩
    have hnd2 : D.Nodup := (List.nodup_cons.mp hnd).2
    obtain ⟨vs, hvslen, hvsmem, happ⟩ :=
      ih (pl.set i0 v0) hnd2
        (fun i hi => by rw [List.length_set]; exact hbound i (List.mem_cons_of_mem i0 hi))
        (by rw [List.length_set]; exact hlen)
        (by
          intro i
          by_cases hii : i = i0
          · subst hii
            refine Or.inr ?_
            rw [List.getElem?_set_self hi0, hv0]
          · rcases hout i with h | h
            · rcases List.mem_cons.mp h with h2 | h2
              · exact absurd h2 hii
              · exact Or.inl h2
            · refine Or.inr ?_
              rw [List.getElem?_set_ne (fun h2 => hii h2.symm)]
              exact h)
    refine ⟨v0 :: vs, by simp [hvslen], ?_, ?_⟩
    · intro v hv
      rcases List.mem_cons.mp hv with rfl | hv2
      · exact ⟨i0, List.mem_cons_self i0 D, hv0⟩
      · obtain ⟨i, hiD, hci⟩ := hvsmem v hv2
        exact ⟨i, List.mem_cons_of_mem i0 hiD, hci⟩
    · rw [applyRevision]
      exact happ

/-- Membership characterization of `revise_at_idx`: kept candidates are
exactly the revisions (by a label-space assignment at `idxs`) whose reasoning
result passes `_check_equal`. -/
theorem mem_revise_at_idx {kb : KB L R X} {pl : List L} {y : R} {x : X} {idxs : List ℕ}
    {c : List L} :
    c ∈ (kb.revise_at_idx pl y x idxs).1 ↔
      ∃ vs ∈ productRepeat kb.pseudo_label_list idxs.length,
        c = applyRevision pl idxs vs ∧ kb.check_equal (kb.logic_forward c x) y = true := by
  rw [KB.revise_at_idx]
  simp only [List.mem_map, List.mem_filterMap]
  constructor
  · rintro ⟨⟨cand, rr⟩, ⟨vs, hvs, hsome⟩, rfl⟩
    by_cases hchk :
        kb.check_equal (kb.logic_forward (applyRevision pl idxs vs) x) y = true
    · rw [if_pos hchk] at hsome
      injection hsome with h
      injection h with h1 h2
      exact ⟨vs, hvs, h1.symm, h1 ▸ hchk⟩
    · rw [if_neg hchk] at hsome
      exact absurd hsome (by simp)
  · rintro ⟨vs, hvs, rfl, hchk⟩
    exact ⟨(applyRevision pl idxs vs, kb.logic_forward (applyRevision pl idxs vs) x),
      ⟨vs, hvs, by rw [if_pos hchk]⟩, rfl⟩

/-- Membership in a `_revision` level decomposes over the enumerated index
sets. -/
theorem mem_revision {kb : KB L R X} {k : ℕ} {pl : List L} {y : R} {x : X} {c : List L} :
    c ∈ (kb.revision k pl y x).1 ↔
      ∃ idxs ∈ combinationsAux (List.range pl.length) k,
        c ∈ (kb.revise_at_idx pl y x idxs).1 := by
  rw [KB.revision]
  exact List.mem_flatMap

/-- The two components of `revise_at_idx` have the same length. -/
theorem revise_at_idx_lengths (kb : KB L R X) (pl : List L) (y : R) (x : X) (idxs : List ℕ) :
    (kb.revise_at_idx pl y x idxs).1.length = (kb.revise_at_idx pl y x idxs).2.length := by
  rw [KB.revise_at_idx]
  simp

/-- If a `_revision` level yields no candidate, it yields no reasoning
result either. -/
theorem revision_snd_eq_nil {kb : KB L R X} {k : ℕ} {pl : List L} {y : R} {x : X}
    (h : (kb.revision k pl y x).1 = []) : (kb.revision k pl y x).2 = [] := by
  rw [KB.revision] at h ⊢
  rw [List.flatMap_eq_nil_iff] at h ⊢
  intro idxs hidxs
  have h2 := h idxs hidxs
  have := revise_at_idx_lengths kb pl y x idxs
  rw [h2] at this
  exact List.length_eq_zero.mp this.symm

/-- Membership in `diffIdx`: in-bounds positions where the sequences
disagree. -/
theorem mem_diffIdx [DecidableEq L] {a b : List L} {i : ℕ} :
    i ∈ diffIdx a b ↔ i < a.length ∧ a[i]? ≠ b[i]? := by
  rw [diffIdx, List.mem_filter, List.mem_range, decide_eq_true_iff]

/-- `diffIdx` has no duplicate positions. -/
theorem nodup_diffIdx [DecidableEq L] (a b : List L) : (diffIdx a b).Nodup :=
  (List.nodup_range a.length).filter _

/-- `diffIdx` is a sublist of the position range. -/
theorem diffIdx_sublist [DecidableEq L] (a b : List L) :
    List.Sublist (diffIdx a b) (List.range a.length) :=
  List.filter_sublist _

/-- Candidates of a `_revision` level have the original length, pass the
check, differ from the original at no more than `k` positions, and carry
label-space values at every differing position. -/
theorem revision_mem_spec [DecidableEq L] {kb : KB L R X} {k : ℕ} {pl : List L} {y : R}
    {x : X} {c : List L} (h : c ∈ (kb.revision k pl y x).1) :
    c.length = pl.length ∧ kb.check_equal (kb.logic_forward c x) y = true ∧
      diffCount pl c ≤ k ∧
      ∀ i ∈ diffIdx pl c, ∃ v, getElem? c i = some v ∧ v ∈ kb.pseudo_label_list := by
  obtain ⟨idxs, hidxs, hc⟩ := mem_revision.mp h
  obtain ⟨hsub, hlen⟩ := mem_combinationsAux.mp hidxs
  obtain ⟨vs, hvs, rfl, hchk⟩ := mem_revise_at_idx.mp hc
  obtain ⟨hvslen, hvsmem⟩ := mem_productRepeat.mp hvs
  refine ⟨length_applyRevision pl idxs vs, hchk, ?_, ?_⟩
  · have hsubset : diffIdx pl (applyRevision pl idxs vs) ⊆ idxs := by
      intro i hi
      obtain ⟨hilt, hine⟩ := mem_diffIdx.mp hi
      by_contra hnot
      exact hine (applyRevision_getElem?_not_mem hnot).symm
    have hle : (diffIdx pl (applyRevision pl idxs vs)).length ≤ idxs.length :=
      List.Subperm.length_le (List.subperm_of_subset (nodup_diffIdx pl _) hsubset)
    rw [diffCount, ← hlen]
    exact hle
  · intro i hi
    obtain ⟨hilt, hine⟩ := mem_diffIdx.mp hi
    rcases applyRevision_getElem?_cases pl idxs vs i with hcase | ⟨v, hv, hvi⟩
    · exact absurd hcase.symm hine
    · exact ⟨v, hvi, hvsmem v hv⟩

/-- Completeness of a `_revision` level: any sequence of the right length
that passes the check and whose differing positions hold label-space values
is found at the level equal to its revision distance. -/
theorem mem_revision_of_diff [DecidableEq L] {kb : KB L R X} {pl : List L} {y : R} {x : X}
    {c : List L} (hlen : c.length = pl.length)
    (hchk : kb.check_equal (kb.logic_forward c x) y = true)
    (hlab : ∀ i ∈ diffIdx pl c, ∃ v, getElem? c i = some v ∧ v ∈ kb.pseudo_label_list) :
    c ∈ (kb.revision (diffCount pl c) pl y x).1 := by
  obtain ⟨vs, hvslen, hvsmem, happ⟩ :=
    applyRevision_reconstruct (diffIdx pl c) pl (nodup_diffIdx pl c)
      (fun i hi => (mem_diffIdx.mp hi).1) hlen.symm
      (by
        intro i
        by_cases hi : i < pl.length
        · by_cases hne : getElem? pl i = getElem? c i
          · exact Or.inr hne
          · exact Or.inl (mem_diffIdx.mpr ⟨hi, hne⟩)
        · refine Or.inr ?_
          rw [List.getElem?_eq_none (Nat.le_of_not_lt hi),
            List.getElem?_eq_none (by rw [hlen]; exact Nat.le_of_not_lt hi)])
  refine mem_revision.mpr ⟨diffIdx pl c, ?_, ?_⟩
  · exact mem_combinationsAux.mpr ⟨diffIdx_sublist pl c, rfl⟩
  · refine mem_revise_at_idx.mpr ⟨vs, ?_, happ.symm, hchk⟩
    refine mem_productRepeat.mpr ⟨hvslen, ?_⟩
    intro v hv
    obtain ⟨i, hiD, hci⟩ := hvsmem v hv
    obtain ⟨v2, hv2, hv2mem⟩ := hlab i hiD
    have : v = v2 := by
      rw [hci] at hv2
      exact Option.some.inj hv2
    exact this ▸ hv2mem

/-- Specification of the first loop: a `found` outcome identifies the first
level with candidates; all earlier levels in the list were empty and below
the revision bound, and the accumulators hold exactly that level. -/
theorem searchLevels_found_spec {kb : KB L R X} {pl : List L} {y : R} {x : X} {maxRev : ℤ}
    {minK : ℕ} {cs : List (List L)} {rs : List (Option R)} :
    ∀ ks : List ℕ, kb.searchLevels pl y x maxRev ks [] [] = .found minK cs rs →
      ∃ pre post, ks = pre ++ minK :: post ∧
        (∀ k ∈ pre, (kb.revision k pl y x).1 = [] ∧ (k : ℤ) < maxRev) ∧
        cs = (kb.revision minK pl y x).1 ∧ rs = (kb.revision minK pl y x).2 ∧ cs ≠ [] := by
  intro ks
  induction ks with
  | nil =>
    intro h
    rw [KB.searchLevels] at h
    exact absurd h (by simp)
  | cons k ks ih =>
    intro h
    rw [KB.searchLevels] at h
    simp only [List.nil_append] at h
    by_cases h1 : 0 < (kb.revision k pl y x).1.length
    · rw [if_pos h1] at h
      injection h with h2 h3 h4
      subst h2
      refine ⟨[], ks, rfl, by simp, h3.symm, h4.symm, ?_⟩
      rw [← h3]
      exact List.length_pos.mp h1
    · rw [if_neg h1] at h
      have hemp : (kb.revision k pl y x).1 = [] :=
        List.length_eq_zero.mp (Nat.eq_zero_of_not_pos h1)
      by_cases h2 : maxRev ≤ (k : ℤ)
      · rw [if_pos h2] at h
        exact absurd h (by simp)
      · rw [if_neg h2] at h
        rw [hemp, revision_snd_eq_nil hemp] at h
        obtain ⟨pre, post, hks, hpre, hcs, hrs, hne⟩ := ih h
        refine ⟨k :: pre, post, by rw [List.cons_append, hks], ?_, hcs, hrs, hne⟩
        intro k2 hk2
        rcases List.mem_cons.mp hk2 with rfl | hk2
        · exact ⟨hemp, lt_of_not_le h2⟩
        · exact hpre k2 hk2

/-- Decomposing `List.range m` around a distinguished element determines the
prefix. -/
theorem range_eq_append_cons {m a : ℕ} {pre post : List ℕ}
    (h : List.range m = pre ++ a :: post) : pre = List.range a ∧ a < m := by
  have ham : a < m := by
    have : a ∈ List.range m := by
      rw [h]
      exact List.mem_append_right _ (List.mem_cons_self a post)
    exact List.mem_range.mp this
  have hlen : pre.length < m := by
    have h2 := congrArg List.length h
    rw [List.length_range, List.length_append, List.length_cons] at h2
    omega
  have hget : getElem? (List.range m) pre.length = some a := by
    rw [h, List.getElem?_append_right (le_refl pre.length)]
    simp
  rw [List.getElem?_range hlen] at hget
  have ha2 : a = pre.length := (Option.some.inj hget).symm
  constructor
  · have htake : (List.range m).take pre.length = pre := by
      rw [h, List.take_left]
    rw [ha2]
    conv_lhs => rw [← htake]
    rw [List.take_range, Nat.min_eq_left (le_of_lt hlen)]
  · exact ham

/-- Candidates produced by the second loop come from the accumulator or from
an explored level not exceeding the revision bound. -/
theorem moreLevels_mem {kb : KB L R X} {pl : List L} {y : R} {x : X} {maxRev : ℤ}
    {c : List L} :
    ∀ (ks : List ℕ) (cs0 : List (List L)) (rs0 : List (Option R)),
      c ∈ (kb.moreLevels pl y x maxRev ks cs0 rs0).1 →
      c ∈ cs0 ∨ ∃ k ∈ ks, (k : ℤ) ≤ maxRev ∧ c ∈ (kb.revision k pl y x).1 := by
  intro ks
  induction ks with
  | nil =>
    intro cs0 rs0 h
    rw [KB.moreLevels] at h
    exact Or.inl h
  | cons k ks ih =>
    intro cs0 rs0 h
    rw [KB.moreLevels] at h
    by_cases h1 : maxRev < (k : ℤ)
    · rw [if_pos h1] at h
      exact Or.inl h
    · rw [if_neg h1] at h
      rcases ih _ _ h with h2 | ⟨k2, hk2, hle, hc⟩
      · rcases List.mem_append.mp h2 with h3 | h3
        · exact Or.inl h3
        · exact Or.inr ⟨k, List.mem_cons_self k ks, le_of_not_lt h1, h3⟩
      · exact Or.inr ⟨k2, List.mem_cons_of_mem k hk2, hle, hc⟩

/-- The second loop only appends to the accumulated candidates. -/
theorem moreLevels_prefix {kb : KB L R X} {pl : List L} {y : R} {x : X} {maxRev : ℤ} :
    ∀ (ks : List ℕ) (cs0 : List (List L)) (rs0 : List (Option R)),
      ∃ tail, (kb.moreLevels pl y x maxRev ks cs0 rs0).1 = cs0 ++ tail := by
  intro ks
  induction ks with
  | nil =>
    intro cs0 rs0
    rw [KB.moreLevels]
    exact ⟨[], (List.append_nil cs0).symm⟩
  | cons k ks ih =>
    intro cs0 rs0
    rw [KB.moreLevels]
    by_cases h1 : maxRev < (k : ℤ)
    · rw [if_pos h1]
      exact ⟨[], (List.append_nil cs0).symm⟩
    · rw [if_neg h1]
      obtain ⟨tail, ht⟩ := ih (cs0 ++ (kb.revision k pl y x).1) (rs0 ++ (kb.revision k pl y x).2)
      exact ⟨(kb.revision k pl y x).1 ++ tail, by rw [ht, List.append_assoc]⟩

/-- C1: whenever the revision search returns a non-empty candidate list
(with `max_revision_num ≥ 0` and `require_more_revision ≥ 0`), there is a
minimal revision count `minK` — the first level with any match, below which
no level matches — such that every returned candidate has the original
length and differs from the original `pseudo_label` at exactly some `k`
positions with `minK ≤ k ≤ min (minK + require_more_revision)
max_revision_num`; some candidate attains `minK`, and when
`require_more_revision = 0` every candidate differs at exactly `minK`
positions. -/
theorem abduce_by_search_minimality [DecidableEq L] (kb : KB L R X) (pl : List L) (y : R)
    (x : X) (maxRev extra : ℤ) (hm : 0 ≤ maxRev) (he : 0 ≤ extra)
    (cs : List (List L)) (rs : List (Option R))
    (hres : kb.abduce_by_search pl y x maxRev extra = some (cs, rs)) (hne : cs ≠ []) :
    ∃ minK : ℕ,
      (kb.revision minK pl y x).1 ≠ [] ∧
      (∀ k : ℕ, k < minK → (kb.revision k pl y x).1 = []) ∧
      (∃ c ∈ cs, diffCount pl c = minK) ∧
      (∀ c ∈ cs, c.length = pl.length ∧ minK ≤ diffCount pl c ∧
        (diffCount pl c : ℤ) ≤ min ((minK : ℤ) + extra) maxRev) ∧
      (extra = 0 → ∀ c ∈ cs, diffCount pl c = minK) := by
  rw [KB.abduce_by_search] at hres
  cases hout : kb.searchLevels pl y x maxRev (List.range (pl.length + 1)) [] [] with
  | unbound => rw [hout] at hres; exact absurd hres (by simp)
  | infeasible =>
    rw [hout] at hres
    injection hres with h
    injection h with h1 h2
    exact absurd h1.symm hne
  | found minK cs0 rs0 =>
    rw [hout] at hres
    injection hres with h
    have hcs : cs = (kb.moreLevels pl y x maxRev
        ((List.range extra.toNat).map (minK + 1 + ·)) cs0 rs0).1 :=
      (congrArg Prod.fst h).symm
    obtain ⟨pre, post, hks, hpre, hcs0, hrs0, hne0⟩ := searchLevels_found_spec _ hout
    obtain ⟨hprerange, hminKlt⟩ := range_eq_append_cons hks
    have levelEmpty : ∀ k : ℕ, k < minK →
        (kb.revision k pl y x).1 = [] ∧ (k : ℤ) < maxRev := by
      intro k hk
      exact hpre k (by rw [hprerange]; exact List.mem_range.mpr hk)
    have hminKle : (minK : ℤ) ≤ maxRev := by
      cases minK with
      | zero => exact_mod_cast hm
      | succ m =>
        have := (levelEmpty m (Nat.lt_succ_self m)).2
        push_cast
        omega
    have hlow : ∀ (k : ℕ) (c : List L), c ∈ (kb.revision k pl y x).1 →
        minK ≤ diffCount pl c := by
      intro k c hc
      by_contra hlt
      push_neg at hlt
      obtain ⟨hclen, hcchk, -, hclab⟩ := revision_mem_spec hc
      have hback := mem_revision_of_diff hclen hcchk hclab
      rw [(levelEmpty _ hlt).1] at hback
      exact absurd hback (List.not_mem_nil c)
    have hcase : ∀ c ∈ cs, c ∈ (kb.revision minK pl y x).1 ∨
        ∃ k : ℕ, (k : ℤ) ≤ maxRev ∧ (k : ℤ) ≤ (minK : ℤ) + extra ∧
          c ∈ (kb.revision k pl y x).1 := by
      intro c hc
      rw [hcs] at hc
      rcases moreLevels_mem _ _ _ hc with h2 | ⟨k, hkmem, hkle, hk⟩
      · exact Or.inl (hcs0 ▸ h2)
      · obtain ⟨i, hi, rfl⟩ := List.mem_map.mp hkmem
        have hi2 : i < extra.toNat := List.mem_range.mp hi
        refine Or.inr ⟨minK + 1 + i, hkle, ?_, hk⟩
        have := Int.toNat_of_nonneg he
        push_cast
        omega
    have hperc : ∀ c ∈ cs, c.length = pl.length ∧ minK ≤ diffCount pl c ∧
        (diffCount pl c : ℤ) ≤ min ((minK : ℤ) + extra) maxRev := by
      intro c hc
      rcases hcase c hc with h2 | ⟨k, hk1, hk2, h2⟩
      · obtain ⟨hclen, -, hcle, -⟩ := revision_mem_spec h2
        refine ⟨hclen, hlow _ _ h2, le_min ?_ ?_⟩
        · have : (diffCount pl c : ℤ) ≤ (minK : ℤ) := by exact_mod_cast hcle
          omega
        · have : (diffCount pl c : ℤ) ≤ (minK : ℤ) := by exact_mod_cast hcle
          omega
      · obtain ⟨hclen, -, hcle, -⟩ := revision_mem_spec h2
        refine ⟨hclen, hlow _ _ h2, le_min ?_ ?_⟩
        · have : (diffCount pl c : ℤ) ≤ (k : ℤ) := by exact_mod_cast hcle
          omega
        · have : (diffCount pl c : ℤ) ≤ (k : ℤ) := by exact_mod_cast hcle
          omega
    refine ⟨minK, hcs0 ▸ hne0, fun k hk => (levelEmpty k hk).1, ?_, hperc, ?_⟩
    · obtain ⟨c0, hc0⟩ := List.exists_mem_of_ne_nil _ hne0
      obtain ⟨tail, htail⟩ := moreLevels_prefix
        ((List.range extra.toNat).map (minK + 1 + ·)) cs0 rs0
      have hc0cs : c0 ∈ cs := by
        rw [hcs, htail]
        exact List.mem_append_left _ hc0
      have hc0rev : c0 ∈ (kb.revision minK pl y x).1 := hcs0 ▸ hc0
      obtain ⟨-, -, hcle, -⟩ := revision_mem_spec hc0rev
      exact ⟨c0, hc0cs, le_antisymm hcle (hlow _ _ hc0rev)⟩
    · intro h0
      subst h0
      have hcs2 : cs = cs0 := by
        rw [hcs]
        rw [show ((0 : ℤ).toNat = 0) from rfl, List.range_zero, List.map_nil, KB.moreLevels]
      intro c hc
      have hcrev : c ∈ (kb.revision minK pl y x).1 := hcs0 ▸ (hcs2 ▸ hc)
      obtain ⟨-, -, hcle, -⟩ := revision_mem_spec hcrev
      exact le_antisymm hcle (hlow _ _ hcrev)

/-- Witness for `abduce_by_search_minimality`: the sum oracle on `[0, 0]`
with target `1`, `max_revision_num = 2`, `require_more_revision = 1`. -/
theorem abduce_by_search_minimality_witness :
    ∃ minK : ℕ,
      (kbSum.revision minK [0, 0] 1 ()).1 ≠ [] ∧
      (∀ k : ℕ, k < minK → (kbSum.revision k [0, 0] 1 ()).1 = []) ∧
      (∃ c ∈ [[(1 : ℤ), 0], [0, 1], [0, 1], [1, 0]], diffCount [0, 0] c = minK) ∧
      (∀ c ∈ [[(1 : ℤ), 0], [0, 1], [0, 1], [1, 0]], c.length = ([0, 0] : List ℤ).length ∧
        minK ≤ diffCount [0, 0] c ∧
        (diffCount [0, 0] c : ℤ) ≤ min ((minK : ℤ) + 1) 2) ∧
      ((1 : ℤ) = 0 → ∀ c ∈ [[(1 : ℤ), 0], [0, 1], [0, 1], [1, 0]],
        diffCount [0, 0] c = minK) :=
  abduce_by_search_minimality kbSum [0, 0] 1 () 2 1 (by decide) (by decide)
    [[1, 0], [0, 1], [0, 1], [1, 0]] [some 1, some 1, some 1, some 1] (by decide) (by decide)

/-- Every candidate of a successful search comes from some `_revision`
level. -/
theorem abduce_mem_level {kb : KB L R X} {pl : List L} {y : R} {x : X} {maxRev extra : ℤ}
    {cs : List (List L)} {rs : List (Option R)}
    (hres : kb.abduce_by_search pl y x maxRev extra = some (cs, rs)) :
    ∀ c ∈ cs, ∃ k : ℕ, c ∈ (kb.revision k pl y x).1 := by
  rw [KB.abduce_by_search] at hres
  cases hout : kb.searchLevels pl y x maxRev (List.range (pl.length + 1)) [] [] with
  | unbound => rw [hout] at hres; exact absurd hres (by simp)
  | infeasible =>
    rw [hout] at hres
    injection hres with h
    injection h with h1 h2
    intro c hc
    rw [← h1] at hc
    exact absurd hc (List.not_mem_nil c)
  | found minK cs0 rs0 =>
    rw [hout] at hres
    injection hres with h
    have hcs : cs = (kb.moreLevels pl y x maxRev
        ((List.range extra.toNat).map (minK + 1 + ·)) cs0 rs0).1 :=
      (congrArg Prod.fst h).symm
    obtain ⟨pre, post, hks, hpre, hcs0, -, -⟩ := searchLevels_found_spec _ hout
    intro c hc
    rw [hcs] at hc
    rcases moreLevels_mem _ _ _ hc with h2 | ⟨k, -, -, hk⟩
    · exact ⟨minK, hcs0 ▸ h2⟩
    · exact ⟨k, hk⟩

/-- C2 (counterexample): with caching configured on, an oracle of minimal
arity (`_num_args = 1`, candidate only) keeps caching enabled and emits no
warning, while an oracle that also accepts the context (`_num_args = 2`) is
the one whose caching is disabled with a warning — the opposite of the
claim. -/
theorem initUseCache_claim_false :
    initUseCache true 1 = (true, false) ∧ initUseCache true 2 = (false, true) := by decide

/-- C2 (amended): at construction with `use_cache` configured on, caching is
unconditionally disabled (with a warning) exactly when the oracle accepts the
context parameter in addition to the candidate (`_num_args = 2`); an oracle
of minimal arity keeps caching as configured and emits no warning. -/
theorem initUseCache_arity :
    initUseCache true 1 = (true, false) ∧ initUseCache false 1 = (false, false) ∧
    initUseCache true 2 = (false, true) ∧ initUseCache false 2 = (false, false) := by decide

/-- C3: on `pseudo_label = [0, 0]` with target `5` (no revision of any size
matches the sum oracle) and `max_revision_num = 3 >` the sequence length, the
first loop of `_abduce_by_search` exhausts `range(len(pseudo_label) + 1)`
without binding `min_revision_num`, and the function raises
`UnboundLocalError` (modelled by `none`) instead of returning `([], [])` as
the claim requires. -/
theorem abduce_by_search_unbound_crash :
    kbSum.abduce_by_search [0, 0] 5 () 3 0 = none := by decide

/-- C5 (counterexample): in Scenario B (`[0, 0]`, target `1`,
`max_revision_num = 2`, `require_more_revision = 1`) the returned candidate
collection does not contain `[1, 0]` and `[0, 1]` once each: the extra
exploration of level 2 re-derives both (via the assignments that restore one
original position), so each appears twice. -/
theorem scenarioB_each_once_false :
    (kbSum.abduce_by_search [0, 0] 1 () 2 1).map
      (fun p => (p.1.count [1, 0], p.1.count [0, 1])) ≠ some (1, 1) := by decide

/-- C5 (amended): in Scenario B level 1 yields `[1, 0]` and `[0, 1]`
(`min_k = 1`), and the extra exploration of level 2 re-adds `[0, 1]` and
`[1, 0]` (via the level-2 assignments that restore one original position;
the assignment `[1, 1]` with sum 2 does not match), so the final collection
is `[[1, 0], [0, 1], [0, 1], [1, 0]]` — as a set exactly
`{[1, 0], [0, 1]}`, each appearing twice. -/
theorem scenarioB_result :
    kbSum.abduce_by_search [0, 0] 1 () 2 1 =
      some ([[1, 0], [0, 1], [0, 1], [1, 0]], [some 1, some 1, some 1, some 1]) ∧
    [[(1 : ℤ), 0], [0, 1], [0, 1], [1, 0]].count [1, 0] = 2 ∧
    [[(1 : ℤ), 0], [0, 1], [0, 1], [1, 0]].count [0, 1] = 2 := by decide

/-- C9 (counterexample): `revise_at_idx` copies unrevised positions from the
input sequence unchecked, so a candidate can carry a value outside the label
space: with `pseudo_label = [5]`, target `5` and an empty revision index set,
the returned candidate `[5]` holds `5 ∉ [0, 1]`. -/
theorem revise_at_idx_label_space_cex :
    (kbSum.revise_at_idx [5] 5 () []).1 = [[5]] ∧
      (5 : ℤ) ∉ kbSum.pseudo_label_list := by decide

/-- C9 (amended): provided every value of the input `pseudo_label` lies in
the label space, every candidate returned by `revise_at_idx` (for any index
set) and every candidate returned by the full revision search consists only
of label-space values. -/
theorem revise_label_space (kb : KB L R X) (pl : List L) (y : R) (x : X)
    (hpl : ∀ v ∈ pl, v ∈ kb.pseudo_label_list) :
    (∀ (idxs : List ℕ), ∀ c ∈ (kb.revise_at_idx pl y x idxs).1, ∀ v ∈ c,
      v ∈ kb.pseudo_label_list) ∧
    (∀ (maxRev extra : ℤ) (cs : List (List L)) (rs : List (Option R)),
      kb.abduce_by_search pl y x maxRev extra = some (cs, rs) →
      ∀ c ∈ cs, ∀ v ∈ c, v ∈ kb.pseudo_label_list) := by
  have hra : ∀ (idxs : List ℕ), ∀ c ∈ (kb.revise_at_idx pl y x idxs).1, ∀ v ∈ c,
      v ∈ kb.pseudo_label_list := by
    intro idxs c hc v hv
    obtain ⟨vs, hvs, rfl, -⟩ := mem_revise_at_idx.mp hc
    obtain ⟨-, hvsmem⟩ := mem_productRepeat.mp hvs
    rcases mem_applyRevision hv with h | h
    · exact hpl v h
    · exact hvsmem v h
  refine ⟨hra, ?_⟩
  intro maxRev extra cs rs hres c hc v hv
  obtain ⟨k, hk⟩ := abduce_mem_level hres c hc
  obtain ⟨idxs, -, hc2⟩ := mem_revision.mp hk
  exact hra idxs c hc2 v hv

/-- Witness for `revise_label_space`: on the sum knowledge base with input
`[0, 0]`, the candidate `[1, 0]` of `revise_at_idx` at index set `[0]`
carries the label-space value `1`. -/
theorem revise_label_space_witness : (1 : ℤ) ∈ kbSum.pseudo_label_list :=
  (revise_label_space kbSum [0, 0] 1 () (by decide)).1 [0] [1, 0] (by decide) 1 (by decide)

section CacheLemmas

variable {α β : Type} [DecidableEq α]

/-- A successful association lookup is a binding of the list. -/
theorem assocFind_mem {k : α} {v : β} : ∀ {l : List (α × β)},
    assocFind k l = some v → (k, v) ∈ l := by
  intro l
  induction l with
  | nil => intro h; rw [assocFind] at h; exact absurd h (by simp)
  | cons p t ih =>
    intro h
    rw [assocFind] at h
    by_cases h2 : p.1 = k
    · rw [if_pos h2] at h
      injection h with h3
      exact List.mem_cons.mpr (Or.inl (Prod.ext_iff.mpr ⟨h2, h3⟩).symm)
    · rw [if_neg h2] at h
      exact List.mem_cons_of_mem p (ih h)

/-- A failed association lookup means the key is absent. -/
theorem assocFind_eq_none {k : α} : ∀ {l : List (α × β)},
    assocFind k l = none → ∀ p ∈ l, p.1 ≠ k := by
  intro l
  induction l with
  | nil => intro _ p hp; exact absurd hp (List.not_mem_nil p)
  | cons q t ih =>
    intro h p hp
    rw [assocFind] at h
    by_cases h2 : q.1 = k
    · rw [if_pos h2] at h; exact absurd h (by simp)
    · rw [if_neg h2] at h
      rcases List.mem_cons.mp hp with rfl | hp2
      · exact h2
      · exact ih h p hp2

/-- Deleting a binding gives back a sublist. -/
theorem assocErase_sublist (k : α) : ∀ l : List (α × β), List.Sublist (assocErase k l) l := by
  intro l
  induction l with
  | nil => rw [assocErase]
  | cons q t ih =>
    rw [assocErase]
    by_cases h2 : q.1 = k
    · rw [if_pos h2]
      exact List.sublist_cons_self q t
    · rw [if_neg h2]
      exact ih.cons₂ q

/-- With unique keys, the bindings surviving a deletion have other keys. -/
theorem assocErase_key_ne {k : α} : ∀ {l : List (α × β)}, (l.map Prod.fst).Nodup →
    ∀ p ∈ assocErase k l, p.1 ≠ k := by
  intro l
  induction l with
  | nil => intro _ p hp; rw [assocErase] at hp; exact absurd hp (List.not_mem_nil p)
  | cons q t ih =>
    intro hnd p hp
    rw [assocErase] at hp
    rw [List.map_cons, List.nodup_cons] at hnd
    by_cases h2 : q.1 = k
    · rw [if_pos h2] at hp
      intro hk
      exact hnd.1 (h2 ▸ hk ▸ List.mem_map_of_mem Prod.fst hp)
    · rw [if_neg h2] at hp
      rcases List.mem_cons.mp hp with rfl | hp2
      · exact h2
      · exact ih hnd.2 p hp2

/-- Deleting a present key shortens the list by exactly one. -/
theorem assocErase_length {k : α} {v : β} : ∀ {l : List (α × β)},
    assocFind k l = some v → (assocErase k l).length + 1 = l.length := by
  intro l
  induction l with
  | nil => intro h; rw [assocFind] at h; exact absurd h (by simp)
  | cons q t ih =>
    intro h
    rw [assocFind] at h
    rw [assocErase]
    by_cases h2 : q.1 = k
    · rw [if_pos h2]
      rw [List.length_cons]
    · rw [if_neg h2] at h ⊢
      rw [List.length_cons, List.length_cons, ih h]

variable {V0 K V F : Type} [DecidableEq K]

omit [DecidableEq K] in
/-- `init_cache` is the identity once initialization has happened. -/
theorem init_cache_of_has_init {c : Cache V0 K V} (obj : Owner V0 K F)
    (h : c.has_init = true) : c.init_cache obj = c := by
  rw [Cache.init_cache, h]
  simp

omit [DecidableEq K] in
/-- `init_cache` on an uninitialized cache binds the owner's configuration
and resets everything. -/
theorem init_cache_of_not_has_init {c : Cache V0 K V} (obj : Owner V0 K F)
    (h : c.has_init = false) :
    c.init_cache obj =
      { has_init := true, cache := true, cache_dict := [],
        key_func := some obj.key_func, max_size := obj.cache_size,
        hits := 0, misses := 0, full := false, ring := [], nextId := 0 } := by
  rw [Cache.init_cache, h]
  simp

/-- Complete case analysis of a successful `get_from_dict` call: it is a hit
(link moved to the most-recently-used end, `hits` incremented), a miss with
eviction (`full`, oldest ring link evicted — its key must still be in the
dict), or a plain miss insertion (`full` recomputed when the capacity is an
integer).  In the miss cases the returned value is the wrapped function's. -/
theorem get_from_dict_eq_some {func : Owner V0 K F → V0 → V0 → X → ℤ → ℤ → Option V}
    {c c' : Cache V0 K V} {obj : Owner V0 K F} {pl y : V0} {x : X} {m e : ℤ} {v : V}
    (h : c.get_from_dict func obj pl y x m e = some (v, c')) :
    ∃ kf, c.key_func = some kf ∧
      ((∃ linkId link, assocFind (kf pl, kf y, m, e) c.cache_dict = some linkId ∧
          c.ring.find? (fun lk => decide (lk.id = linkId)) = some link ∧
          v = link.val ∧
          c' = { c with
                 ring := (c.ring.filter fun lk => decide (¬ lk.id = linkId)) ++ [link],
                 hits := c.hits + 1 }) ∨
       (assocFind (kf pl, kf y, m, e) c.cache_dict = none ∧
         func obj pl y x m e = some v ∧
         ((∃ oldest rest j, c.full = true ∧ c.ring = oldest :: rest ∧
            assocFind oldest.key c.cache_dict = some j ∧
            c' = { c with
                   misses := c.misses + 1,
                   cache_dict := assocErase oldest.key c.cache_dict ++
                     [((kf pl, kf y, m, e), c.nextId)],
                   ring := rest ++ [⟨c.nextId, (kf pl, kf y, m, e), v⟩],
                   nextId := c.nextId + 1 }) ∨
          (c.full = false ∧
            c' = { c with
                   misses := c.misses + 1,
                   cache_dict := c.cache_dict ++ [((kf pl, kf y, m, e), c.nextId)],
                   ring := c.ring ++ [⟨c.nextId, (kf pl, kf y, m, e), v⟩],
                   nextId := c.nextId + 1,
                   full := match c.max_size with
                           | some n => decide ((c.cache_dict.length + 1 : ℤ) ≥ n)
                           | none => c.full })))) := by
  rw [Cache.get_from_dict] at h
  cases hkf : c.key_func with
  | none => rw [hkf] at h; exact absurd h (by simp)
  | some kf =>
    rw [hkf] at h
    refine ⟨kf, rfl, ?_⟩
    simp only at h
    cases hfind : assocFind (kf pl, kf y, m, e) c.cache_dict with
    | some linkId =>
      rw [hfind] at h
      simp only at h
      cases hlk : c.ring.find? (fun lk => decide (lk.id = linkId)) with
      | none => rw [hlk] at h; exact absurd h (by simp)
      | some link =>
        rw [hlk] at h
        simp only at h
        injection h with h2
        injection h2 with h3 h4
        exact Or.inl ⟨linkId, link, rfl, hlk, h3.symm, h4.symm⟩
    | none =>
      rw [hfind] at h
      simp only at h
      cases hfv : func obj pl y x m e with
      | none => rw [hfv] at h; exact absurd h (by simp)
      | some result =>
        rw [hfv] at h
        simp only at h
        by_cases hfull : c.full
        · rw [if_pos hfull] at h
          cases hring : c.ring with
          | nil => rw [hring] at h; exact absurd h (by simp)
          | cons oldest rest =>
            rw [hring] at h
            simp only at h
            cases hold : assocFind oldest.key c.cache_dict with
            | none => rw [hold] at h; exact absurd h (by simp)
            | some j =>
              rw [hold] at h
              simp only at h
              injection h with h2
              injection h2 with h3 h4
              subst h3
              exact Or.inr ⟨rfl, rfl, Or.inl ⟨oldest, rest, j, hfull, rfl, hold, h4.symm⟩⟩
        · rw [if_neg hfull] at h
          injection h with h2
          injection h2 with h3 h4
          subst h3
          exact Or.inr ⟨rfl, rfl,
            Or.inr ⟨Bool.not_eq_true c.full ▸ hfull, h4.symm⟩⟩

/-- Case analysis of a successful wrapper call: bypass (caching off) or a
`get_from_dict` on the (idempotently) initialized state. -/
theorem ablWrapper_eq_some {func : Owner V0 K F → V0 → V0 → X → ℤ → ℤ → Option V}
    {c c' : Cache V0 K V} {obj : Owner V0 K F} {pl y : V0} {x : X} {m e : ℤ} {v : V}
    (h : ablWrapper func c obj pl y x m e = some (v, c')) :
    (obj.use_cache = false ∧ func obj pl y x m e = some v ∧ c' = c) ∨
    (obj.use_cache = true ∧
      (c.init_cache obj).get_from_dict func obj pl y x m e = some (v, c')) := by
  rw [ablWrapper] at h
  by_cases hu : obj.use_cache
  · rw [if_pos hu] at h
    exact Or.inr ⟨hu, h⟩
  · rw [if_neg hu] at h
    rcases Option.map_eq_some'.mp h with ⟨v2, hv2, h2⟩
    injection h2 with h3 h4
    exact Or.inl ⟨Bool.not_eq_true obj.use_cache ▸ hu, h3 ▸ hv2, h4.symm⟩

/-- The dictionary-size invariant survives one successful `get_from_dict`
step: hits and evictions preserve the entry count, and insertions (only
possible while not `full`) grow it by one while staying under the bound. -/
theorem get_size_inv {func : Owner V0 K F → V0 → V0 → X → ℤ → ℤ → Option V}
    {d c' : Cache V0 K V} {obj : Owner V0 K F} {pl y : V0} {x : X} {m e : ℤ} {v : V}
    (h : d.get_from_dict func obj pl y x m e = some (v, c'))
    (hd : ∀ n : ℤ, d.max_size = some n → (d.cache_dict.length : ℤ) ≤ max n 1 ∧
      (d.full = false → (d.cache_dict.length : ℤ) < max n 1)) :
    ∀ n : ℤ, c'.max_size = some n → (c'.cache_dict.length : ℤ) ≤ max n 1 ∧
      (c'.full = false → (c'.cache_dict.length : ℤ) < max n 1) := by
  obtain ⟨kf, hkf, hcase⟩ := get_from_dict_eq_some h
  rcases hcase with ⟨linkId, link, -, -, -, rfl⟩ |
    ⟨-, -, ⟨oldest, rest, j, hfull, -, hold, rfl⟩ | ⟨hfull, rfl⟩⟩
  · intro n hn
    exact hd n hn
  · intro n hn
    have hlen : (assocErase oldest.key d.cache_dict ++
        [((kf pl, kf y, m, e), d.nextId)]).length = d.cache_dict.length := by
      rw [List.length_append, List.length_singleton, ← assocErase_length hold]
    refine ⟨?_, ?_⟩
    · show ((assocErase oldest.key d.cache_dict ++
        [((kf pl, kf y, m, e), d.nextId)]).length : ℤ) ≤ max n 1
      rw [hlen]
      exact (hd n hn).1
    · intro hf
      have : d.full = false := hf
      rw [hfull] at this
      exact absurd this (by simp)
  · intro n hn
    have hsz : d.max_size = some n := hn
    have hlt := (hd n hsz).2 hfull
    have hlen : ((d.cache_dict ++ [((kf pl, kf y, m, e), d.nextId)]).length : ℤ)
        = (d.cache_dict.length : ℤ) + 1 := by
      rw [List.length_append, List.length_singleton]
      push_cast
      ring
    refine ⟨?_, ?_⟩
    · show ((d.cache_dict ++ [((kf pl, kf y, m, e), d.nextId)]).length : ℤ) ≤ max n 1
      rw [hlen]
      omega
    · intro hf
      have hf2 : (match d.max_size with
          | some n => decide ((d.cache_dict.length + 1 : ℤ) ≥ n)
          | none => d.full) = false := hf
      rw [hsz] at hf2
      simp only [decide_eq_false_iff_not, ge_iff_le, not_le] at hf2
      show ((d.cache_dict ++ [((kf pl, kf y, m, e), d.nextId)]).length : ℤ) < max n 1
      rw [hlen]
      have hnle : n ≤ max n 1 := le_max_left n 1
      omega

/-- The dictionary-size invariant holds in every reachable cache state. -/
theorem cacheReach_size_inv {func : Owner V0 K F → V0 → V0 → X → ℤ → ℤ → Option V}
    {allowed : Owner V0 K F → Prop} {c : Cache V0 K V}
    (h : CacheReach func allowed c) :
    ∀ n : ℤ, c.max_size = some n → (c.cache_dict.length : ℤ) ≤ max n 1 ∧
      (c.full = false → (c.cache_dict.length : ℤ) < max n 1) := by
  induction h with
  | initial =>
    intro n hn
    have hn2 : (0 : ℤ) = n := by
      have h0 : (Cache.initial : Cache V0 K V).max_size = some 0 := rfl
      rw [h0] at hn
      exact Option.some.inj hn
    subst hn2
    have hlt : (0 : ℤ) < max (0 : ℤ) 1 := lt_max_of_lt_right one_pos
    exact ⟨le_of_lt hlt, fun _ => hlt⟩
  | @step c c' obj pl y x m e v hallow hr hcall ih =>
    rcases ablWrapper_eq_some hcall with ⟨-, -, rfl⟩ | ⟨-, hget⟩
    · exact ih
    · refine get_size_inv hget ?_
      by_cases hini : c.has_init = true
      · rw [init_cache_of_has_init obj hini]
        exact ih
      · rw [init_cache_of_not_has_init obj (Bool.not_eq_true c.has_init ▸ hini)]
        intro n hn
        have hlt : (0 : ℤ) < max n 1 := lt_max_of_lt_right one_pos
        exact ⟨le_of_lt hlt, fun _ => hlt⟩
  | clear hr ih =>
    intro n hn
    have hlt : (0 : ℤ) < max n 1 := lt_max_of_lt_right one_pos
    exact ⟨le_of_lt hlt, fun _ => hlt⟩

/-- C10: in every reachable state of an enabled cache whose bound capacity is
an integer `n`, the number of stored entries never exceeds `max n 1`: the
first miss inserts one entry before the capacity check marks the cache full
(so `cache_size = 0` still stores one entry), and every later miss on a full
cache evicts before inserting. -/
theorem cache_dict_length_bound {func : Owner V0 K F → V0 → V0 → X → ℤ → ℤ → Option V}
    {allowed : Owner V0 K F → Prop} {c : Cache V0 K V} {n : ℤ}
    (hreach : CacheReach func allowed c) (hsz : c.max_size = some n) :
    (c.cache_dict.length : ℤ) ≤ max n 1 :=
  (cacheReach_size_inv hreach n hsz).1

/-- Witness for `cache_dict_length_bound`: two key-distinct lookups through
the capacity-0 owner `objCap0` reach `capZeroState2`, which retains exactly
one entry — within the bound `max 0 1`. -/
theorem cache_dict_length_bound_witness :
    ((capZeroState2.cache_dict.length : ℤ) ≤ max 0 1) ∧
      capZeroState2.cache_dict.length = 1 := by
  have e1 : ablWrapper idFunc Cache.initial objCap0 1 1 () 0 0 =
      some (1, capZeroState1) := rfl
  have e2 : ablWrapper idFunc capZeroState1 objCap0 2 2 () 0 0 =
      some (2, capZeroState2) := rfl
  have r1 : CacheReach idFunc (fun _ => True) capZeroState1 :=
    CacheReach.step trivial CacheReach.initial e1
  have r2 : CacheReach idFunc (fun _ => True) capZeroState2 :=
    CacheReach.step trivial r1 e2
  exact ⟨cache_dict_length_bound r2 rfl, rfl⟩

/-- C7: the cache can raise.  Fill a capacity-1 cache with one lookup
(`full` becomes `True`), call `clear_cache` (which only empties the dict,
leaving `full = True` and the recency ring populated), then make a second,
key-distinct lookup: the miss takes the eviction path and
`del self.cache_dict[oldkey]` raises `KeyError` because the dict no longer
holds the evicted ring node's key — modelled by the step returning `none` —
contradicting the claim that every cache operation returns normally. -/
theorem cache_clear_then_miss_raises :
    ((ablWrapper idFunc Cache.initial objCap1 1 1 () 0 0).bind
      fun p => ablWrapper idFunc p.2.clear_cache objCap1 2 2 () 0 0) = none := by rfl

/-- Computation of the first wrapper call on a fresh cache: initialization
binds the owner's key function and capacity, the lookup misses, the wrapped
function is invoked, and its result is stored under the key built from the
pseudo-label, the ground truth and the two bounds — not the context. -/
theorem wrapper_initial_miss {func : Owner V0 K F → V0 → V0 → X → ℤ → ℤ → Option V}
    {obj : Owner V0 K F} {pl y : V0} {x : X} {m e : ℤ} {v : V}
    (hu : obj.use_cache = true) (hf : func obj pl y x m e = some v) :
    ablWrapper func Cache.initial obj pl y x m e =
      some (v,
        { has_init := true, cache := true,
          cache_dict := [((obj.key_func pl, obj.key_func y, m, e), 0)],
          key_func := some obj.key_func, max_size := obj.cache_size,
          hits := 0, misses := 1,
          full := match obj.cache_size with
                  | some n => decide ((1 : ℤ) ≥ n)
                  | none => false,
          ring := [⟨0, (obj.key_func pl, obj.key_func y, m, e), v⟩],
          nextId := 1 }) := by
  rw [ablWrapper, hu, if_pos rfl, init_cache_of_not_has_init obj rfl, Cache.get_from_dict]
  simp only [assocFind, hf, List.nil_append, List.length_nil, Nat.cast_zero, zero_add]
  norm_num

/-- Computation of a wrapper call that hits the single stored entry: no
matter which owner makes the call and which context it passes, the key
matches, the stored value is returned, and only `hits` (and the recency
order, trivially here) changes. -/
theorem wrapper_singleton_hit {func : Owner V0 K F → V0 → V0 → X → ℤ → ℤ → Option V}
    {obj2 : Owner V0 K F} (kf : V0 → K) {pl y : V0} {x : X} {m e : ℤ} {v : V}
    (d : Cache V0 K V) (hu : obj2.use_cache = true) (hini : d.has_init = true)
    (hkf : d.key_func = some kf)
    (hdict : d.cache_dict = [((kf pl, kf y, m, e), 0)])
    (hring : d.ring = [⟨0, (kf pl, kf y, m, e), v⟩]) :
    ablWrapper func d obj2 pl y x m e =
      some (v, { d with ring := [⟨0, (kf pl, kf y, m, e), v⟩],
                        hits := d.hits + 1 }) := by
  rw [ablWrapper, hu, if_pos rfl, init_cache_of_has_init obj2 hini, Cache.get_from_dict,
    hkf]
  simp only [hdict, hring, assocFind, List.find?, List.filter]
  norm_num

/-- C8: the cache key is built only from `key_func(pseudo_label)`,
`key_func(y)` and the two revision bounds — the context argument `x` is
excluded — so a second cached call whose arguments differ only in `x` is a
hit: it returns the result stored by the first call, incrementing `hits` and
leaving `misses` unchanged (the search is not re-invoked). -/
theorem cache_key_excludes_context {func : Owner V0 K F → V0 → V0 → X → ℤ → ℤ → Option V}
    (obj : Owner V0 K F) (pl y : V0) (x1 x2 : X) (m e : ℤ) (v1 : V)
    (hu : obj.use_cache = true) (hf : func obj pl y x1 m e = some v1) :
    ∃ c1, ablWrapper func Cache.initial obj pl y x1 m e = some (v1, c1) ∧
      ∃ c2, ablWrapper func c1 obj pl y x2 m e = some (v1, c2) ∧
        c2.hits = c1.hits + 1 ∧ c2.misses = c1.misses := by
  refine ⟨_, wrapper_initial_miss hu hf, ?_⟩
  exact ⟨_, wrapper_singleton_hit obj.key_func _ hu rfl rfl rfl rfl, rfl, rfl⟩

/-- Witness for `cache_key_excludes_context`: `addFunc` through `objAdd`
with contexts `5` and then `7`; the second call returns the stored `3` as a
hit. -/
theorem cache_key_excludes_context_witness :
    ∃ c1, ablWrapper addFunc Cache.initial objAdd 1 2 5 0 0 = some (3, c1) ∧
      ∃ c2, ablWrapper addFunc c1 objAdd 1 2 7 0 0 = some (3, c2) ∧
        c2.hits = c1.hits + 1 ∧ c2.misses = c1.misses :=
  cache_key_excludes_context objAdd 1 2 5 7 0 0 3 rfl rfl

/-- C4 (counterexample): the decorator-level cache is shared by every
instance of the class: after the `kbSum` owner stores the result
`([[1, 1]], [some 2])` for `([0, 0], 2, 2, 0)`, the `kbMax` owner's lookup
with the same key is served that stored entry, although direct invocation of
the search on `kbMax` returns `([], [])`. -/
theorem cache_cross_instance_reuse_cex :
    ((ablWrapper searchFunc Cache.initial objSum (Sum.inl [0, 0]) (Sum.inr 2) () 2 0).bind
        fun p => ablWrapper searchFunc p.2 objMax (Sum.inl [0, 0]) (Sum.inr 2) () 2 0).map
        Prod.fst = some ([[1, 1]], [some 2]) ∧
      searchFunc objMax (Sum.inl [0, 0]) (Sum.inr 2) () 2 0 = some ([], []) ∧
      (([[1, 1]], [some 2]) : List (List ℤ) × List (Option ℤ)) ≠ ([], []) :=
  ⟨rfl, rfl, by decide⟩

/-- C4 (amended): the memoization cache backing `_abduce_by_search` is
created once per decorated function and shared across instances: it is
initialized lazily on the first cached call, binding the key function and
capacity of whichever instance makes that call; afterwards any instance with
caching enabled is served entries stored by any other, and the bound
configuration (still the first owner's) is not re-read. -/
theorem cache_shared_across_instances {func : Owner V0 K F → V0 → V0 → X → ℤ → ℤ → Option V}
    (obj1 obj2 : Owner V0 K F) (pl y : V0) (x1 x2 : X) (m e : ℤ) (v1 : V)
    (h1 : obj1.use_cache = true) (h2 : obj2.use_cache = true)
    (hf : func obj1 pl y x1 m e = some v1) :
    ∃ c1, ablWrapper func Cache.initial obj1 pl y x1 m e = some (v1, c1) ∧
      ∃ c2, ablWrapper func c1 obj2 pl y x2 m e = some (v1, c2) ∧
        c2.key_func = some obj1.key_func ∧ c2.max_size = obj1.cache_size ∧
        c2.hits = 1 ∧ c2.misses = 1 := by
  refine ⟨_, wrapper_initial_miss h1 hf, ?_⟩
  exact ⟨_, wrapper_singleton_hit obj1.key_func _ h2 rfl rfl rfl rfl, rfl, rfl, rfl, rfl⟩

/-- Witness for `cache_shared_across_instances`: the `kbSum` owner computes
and stores `([[1, 1]], [some 2])`; the `kbMax` owner's identically-keyed call
is served that entry as a hit. -/
theorem cache_shared_across_instances_witness :
    ∃ c1, ablWrapper searchFunc Cache.initial objSum (Sum.inl [0, 0]) (Sum.inr 2) () 2 0 =
        some (([[1, 1]], [some 2]), c1) ∧
      ∃ c2, ablWrapper searchFunc c1 objMax (Sum.inl [0, 0]) (Sum.inr 2) () 2 0 =
          some (([[1, 1]], [some 2]), c2) ∧
        c2.key_func = some objSum.key_func ∧ c2.max_size = objSum.cache_size ∧
        c2.hits = 1 ∧ c2.misses = 1 :=
  cache_shared_across_instances objSum objMax (Sum.inl [0, 0]) (Sum.inr 2) () ()
    2 0 ([[1, 1]], [some 2]) rfl rfl (by decide)

/-- The consistency invariant holds for the fresh cache. -/
theorem cacheInv_initial {func : Owner V0 K F → V0 → V0 → X → ℤ → ℤ → Option V}
    {obj : Owner V0 K F} : CacheInv func obj (Cache.initial : Cache V0 K V) := by
  refine ⟨Or.inl rfl, ?_, ?_, ?_, ?_⟩ <;> simp [Cache.initial]

/-- `init_cache` (by this owner) preserves the consistency invariant. -/
theorem cacheInv_init_cache {func : Owner V0 K F → V0 → V0 → X → ℤ → ℤ → Option V}
    {obj : Owner V0 K F} {c : Cache V0 K V}
    (h : CacheInv func obj c) : CacheInv func obj (c.init_cache obj) := by
  by_cases hini : c.has_init = true
  · rw [init_cache_of_has_init obj hini]
    exact h
  · rw [init_cache_of_not_has_init obj (Bool.not_eq_true c.has_init ▸ hini)]
    refine ⟨Or.inr rfl, ?_, ?_, ?_, ?_⟩ <;> simp

/-- `clear_cache` preserves the consistency invariant. -/
theorem cacheInv_clear {func : Owner V0 K F → V0 → V0 → X → ℤ → ℤ → Option V}
    {obj : Owner V0 K F} {c : Cache V0 K V}
    (h : CacheInv func obj c) : CacheInv func obj c.clear_cache := by
  obtain ⟨h1, -, h3, h4, -⟩ := h
  refine ⟨h1, by simp [Cache.clear_cache], h3, h4, ?_⟩
  intro p hp
  exact absurd hp (by simp [Cache.clear_cache])

/-- One successful `get_from_dict` call by the owner preserves the
consistency invariant, and — given an injective key function and a wrapped
function insensitive to the context — returns exactly what the wrapped
function returns for the call's arguments. -/
theorem cacheInv_get {func : Owner V0 K F → V0 → V0 → X → ℤ → ℤ → Option V}
    {obj : Owner V0 K F} {d c' : Cache V0 K V} {pl y : V0} {x : X} {m e : ℤ} {v : V}
    (hinj : Function.Injective obj.key_func)
    (hx : ∀ (pl2 y2 : V0) (m2 e2 : ℤ) (x1 x2 : X),
      func obj pl2 y2 x1 m2 e2 = func obj pl2 y2 x2 m2 e2)
    (hinv : CacheInv func obj d)
    (h : d.get_from_dict func obj pl y x m e = some (v, c')) :
    CacheInv func obj c' ∧ func obj pl y x m e = some v := by
  obtain ⟨kf, hkf, hcase⟩ := get_from_dict_eq_some h
  obtain ⟨hkfd, hdnd, hrnd, hbound, hent⟩ := hinv
  have hkfo : kf = obj.key_func := by
    rcases hkfd with h2 | h2
    · rw [h2] at hkf
      exact absurd hkf (by simp)
    · rw [h2] at hkf
      exact (Option.some.inj hkf).symm
  subst hkfo
  rcases hcase with ⟨linkId, link, hfind, hlk, hveq, rfl⟩ |
    ⟨hfind, hfv, ⟨oldest, rest, j, hfull, hringeq, hold, rfl⟩ | ⟨hfull, rfl⟩⟩
  · -- hit
    have hlinkmem : link ∈ d.ring := List.mem_of_find?_eq_some hlk
    have hlinkid : link.id = linkId := by
      have h5 := List.find?_some hlk
      exact of_decide_eq_true h5
    have hpmem : ((obj.key_func pl, obj.key_func y, m, e), linkId) ∈ d.cache_dict :=
      assocFind_mem hfind
    obtain ⟨lk, hlkmem, hlkid, hlkkey, hlkprop⟩ := hent _ hpmem
    have hlkeq : lk = link :=
      List.inj_on_of_nodup_map hrnd hlkmem hlinkmem (by rw [hlkid, hlinkid])
    constructor
    · refine ⟨hkfd, hdnd, ?_, ?_, ?_⟩
      · rw [List.map_append]
        refine List.nodup_append.mpr ⟨?_, by simp, ?_⟩
        · exact hrnd.sublist ((List.filter_sublist d.ring).map Link.id)
        · intro a ha hb
          obtain ⟨lk2, hlk2mem, rfl⟩ := List.mem_map.mp ha
          have hne : ¬ lk2.id = linkId := by
            have h6 := List.of_mem_filter hlk2mem
            exact of_decide_eq_true h6
          rw [List.map_singleton, List.mem_singleton] at hb
          exact hne (hb.trans hlinkid)
      · intro lk2 hlk2
        rcases List.mem_append.mp hlk2 with h2 | h2
        · exact hbound lk2 (List.mem_of_mem_filter h2)
        · rw [List.mem_singleton] at h2
          rw [h2]
          exact hbound link hlinkmem
      · intro p hp
        obtain ⟨lkp, hlkpmem, hlkp1, hlkp2, hlkp3⟩ := hent p hp
        by_cases hid : lkp.id = linkId
        · have hlkpeq : lkp = link :=
            List.inj_on_of_nodup_map hrnd hlkpmem hlinkmem (by rw [hid, hlinkid])
          refine ⟨link, List.mem_append_right _ (List.mem_singleton.mpr rfl), ?_, ?_, ?_⟩
          · rw [← hlkpeq]
            exact hlkp1
          · rw [← hlkpeq]
            exact hlkp2
          · intro pl2 y2 m2 e2 x2 hkey
            rw [← hlkpeq]
            exact hlkp3 pl2 y2 m2 e2 x2 hkey
        · refine ⟨lkp, List.mem_append_left _ ?_, hlkp1, hlkp2, hlkp3⟩
          exact List.mem_filter.mpr ⟨hlkpmem, by simp [hid]⟩
    · have hres := hlkprop pl y m e x rfl
      rw [hveq, ← hlkeq]
      exact hres
  · -- miss with eviction
    refine ⟨?_, hfv⟩
    have hrestmem : ∀ lk2 ∈ rest, lk2 ∈ d.ring := by
      intro lk2 h2
      rw [hringeq]
      exact List.mem_cons_of_mem oldest h2
    refine ⟨hkfd, ?_, ?_, ?_, ?_⟩
    · rw [List.map_append]
      refine List.nodup_append.mpr ⟨?_, by simp, ?_⟩
      · exact hdnd.sublist ((assocErase_sublist _ _).map Prod.fst)
      · intro a ha hb
        obtain ⟨p2, hp2mem, rfl⟩ := List.mem_map.mp ha
        rw [List.map_singleton, List.mem_singleton] at hb
        have hp2dict : p2 ∈ d.cache_dict := (assocErase_sublist _ _).subset hp2mem
        exact assocFind_eq_none hfind p2 hp2dict hb
    · rw [List.map_append]
      have hrest : (rest.map Link.id).Nodup := by
        have hthis : (d.ring.map Link.id).Nodup := hrnd
        rw [hringeq, List.map_cons, List.nodup_cons] at hthis
        exact hthis.2
      refine List.nodup_append.mpr ⟨hrest, by simp, ?_⟩
      intro a ha hb
      obtain ⟨lk2, hlk2mem, rfl⟩ := List.mem_map.mp ha
      rw [List.map_singleton, List.mem_singleton] at hb
      exact absurd hb (Nat.ne_of_lt (hbound lk2 (hrestmem lk2 hlk2mem)))
    · intro lk2 hlk2
      rcases List.mem_append.mp hlk2 with h2 | h2
      · exact Nat.lt_succ_of_lt (hbound lk2 (hrestmem lk2 h2))
      · rw [List.mem_singleton] at h2
        subst h2
        exact Nat.lt_succ_self _
    · intro p hp
      rcases List.mem_append.mp hp with h2 | h2
      · have hp2dict : p ∈ d.cache_dict := (assocErase_sublist _ _).subset h2
        obtain ⟨lkp, hlkpmem, hlkp1, hlkp2, hlkp3⟩ := hent p hp2dict
        have hlkprest : lkp ∈ rest := by
          rw [hringeq] at hlkpmem
          rcases List.mem_cons.mp hlkpmem with rfl | h3
          · exact absurd hlkp2.symm (assocErase_key_ne hdnd p h2)
          · exact h3
        exact ⟨lkp, List.mem_append_left _ hlkprest, hlkp1, hlkp2, hlkp3⟩
      · rw [List.mem_singleton] at h2
        subst h2
        refine ⟨⟨d.nextId, (obj.key_func pl, obj.key_func y, m, e), v⟩,
          List.mem_append_right _ (List.mem_singleton.mpr rfl), rfl, rfl, ?_⟩
        intro pl2 y2 m2 e2 x2 hkey
        injection hkey with ha hrest2
        injection hrest2 with hb hrest3
        injection hrest3 with hc hd2
        have hpl : pl = pl2 := hinj ha
        have hy : y = y2 := hinj hb
        subst hpl
        subst hy
        subst hc
        subst hd2
        rw [← hx pl y m e x x2]
        exact hfv
  · -- plain miss insertion
    refine ⟨?_, hfv⟩
    refine ⟨hkfd, ?_, ?_, ?_, ?_⟩
    · rw [List.map_append]
      refine List.nodup_append.mpr ⟨hdnd, by simp, ?_⟩
      intro a ha hb
      obtain ⟨p2, hp2mem, rfl⟩ := List.mem_map.mp ha
      rw [List.map_singleton, List.mem_singleton] at hb
      exact assocFind_eq_none hfind p2 hp2mem hb
    · rw [List.map_append]
      refine List.nodup_append.mpr ⟨hrnd, by simp, ?_⟩
      intro a ha hb
      obtain ⟨lk2, hlk2mem, rfl⟩ := List.mem_map.mp ha
      rw [List.map_singleton, List.mem_singleton] at hb
      exact absurd hb (Nat.ne_of_lt (hbound lk2 hlk2mem))
    · intro lk2 hlk2
      rcases List.mem_append.mp hlk2 with h2 | h2
      · exact Nat.lt_succ_of_lt (hbound lk2 h2)
      · rw [List.mem_singleton] at h2
        subst h2
        exact Nat.lt_succ_self _
    · intro p hp
      rcases List.mem_append.mp hp with h2 | h2
      · obtain ⟨lkp, hlkpmem, hlkp1, hlkp2, hlkp3⟩ := hent p h2
        exact ⟨lkp, List.mem_append_left _ hlkpmem, hlkp1, hlkp2, hlkp3⟩
      · rw [List.mem_singleton] at h2
        subst h2
        refine ⟨⟨d.nextId, (obj.key_func pl, obj.key_func y, m, e), v⟩,
          List.mem_append_right _ (List.mem_singleton.mpr rfl), rfl, rfl, ?_⟩
        intro pl2 y2 m2 e2 x2 hkey
        injection hkey with ha hrest2
        injection hrest2 with hb hrest3
        injection hrest3 with hc hd2
        have hpl : pl = pl2 := hinj ha
        have hy : y = y2 := hinj hb
        subst hpl
        subst hy
        subst hc
        subst hd2
        rw [← hx pl y m e x x2]
        exact hfv

/-- One successful wrapper call by the owner preserves the consistency
invariant and is transparent. -/
theorem cacheInv_wrapper {func : Owner V0 K F → V0 → V0 → X → ℤ → ℤ → Option V}
    {obj : Owner V0 K F} {c c' : Cache V0 K V} {pl y : V0} {x : X} {m e : ℤ} {v : V}
    (hinj : Function.Injective obj.key_func)
    (hx : ∀ (pl2 y2 : V0) (m2 e2 : ℤ) (x1 x2 : X),
      func obj pl2 y2 x1 m2 e2 = func obj pl2 y2 x2 m2 e2)
    (hinv : CacheInv func obj c)
    (h : ablWrapper func c obj pl y x m e = some (v, c')) :
    CacheInv func obj c' ∧ func obj pl y x m e = some v := by
  rcases ablWrapper_eq_some h with ⟨-, hfv, rfl⟩ | ⟨-, hget⟩
  · exact ⟨hinv, hfv⟩
  · exact cacheInv_get hinj hx (cacheInv_init_cache hinv) hget

/-- The consistency invariant holds in every cache state reachable by calls
of one owning instance (and `clear_cache` calls). -/
theorem cacheInv_of_reach {func : Owner V0 K F → V0 → V0 → X → ℤ → ℤ → Option V}
    {obj : Owner V0 K F}
    (hinj : Function.Injective obj.key_func)
    (hx : ∀ (pl2 y2 : V0) (m2 e2 : ℤ) (x1 x2 : X),
      func obj pl2 y2 x1 m2 e2 = func obj pl2 y2 x2 m2 e2)
    {c : Cache V0 K V}
    (h : CacheReach func (fun o => o = obj) c) : CacheInv func obj c := by
  induction h with
  | initial => exact cacheInv_initial
  | @step c c' obj2 pl y x m e v hallow hr hcall ih =>
    cases hallow
    exact (cacheInv_wrapper hinj hx ih hcall).1
  | clear hr ih => exact cacheInv_clear ih

/-- C6 (cache transparency): on a single knowledge-base instance with an
injective key function and a wrapped search insensitive to the context
argument (which is what construction guarantees whenever caching stays
enabled, since such an oracle is not passed the context at all), every
successful cached call — whether served from the cache or freshly computed —
returns exactly what direct (uncached) invocation of the wrapped search
returns for the same arguments. -/
theorem cache_transparent {func : Owner V0 K F → V0 → V0 → X → ℤ → ℤ → Option V}
    {obj : Owner V0 K F}
    (hinj : Function.Injective obj.key_func)
    (hx : ∀ (pl2 y2 : V0) (m2 e2 : ℤ) (x1 x2 : X),
      func obj pl2 y2 x1 m2 e2 = func obj pl2 y2 x2 m2 e2)
    {c c' : Cache V0 K V} {pl y : V0} {x : X} {m e : ℤ} {v : V}
    (hreach : CacheReach func (fun o => o = obj) c)
    (hcall : ablWrapper func c obj pl y x m e = some (v, c')) :
    func obj pl y x m e = some v :=
  (cacheInv_wrapper hinj hx (cacheInv_of_reach hinj hx hreach) hcall).2

/-- Witness for `cache_transparent`: through `objAdd`, a first call with
context `5` stores `3`; a second call with context `9` is a hit whose result
`3` is, as the theorem states, exactly the direct result of `addFunc`. -/
theorem cache_transparent_witness : addFunc objAdd 1 2 9 0 0 = some 3 := by
  have hx : ∀ (pl2 y2 : ℤ) (m2 e2 : ℤ) (x1 x2 : ℤ),
      addFunc objAdd pl2 y2 x1 m2 e2 = addFunc objAdd pl2 y2 x2 m2 e2 :=
    fun _ _ _ _ _ _ => rfl
  have hinj : Function.Injective objAdd.key_func := fun a b h2 => h2
  have e1 : ablWrapper addFunc Cache.initial objAdd 1 2 5 0 0 = some (3, addState1) := rfl
  have e2 : ablWrapper addFunc addState1 objAdd 1 2 9 0 0 = some (3, addState2) := rfl
  have r1 : CacheReach addFunc (fun o => o = objAdd) addState1 :=
    CacheReach.step rfl CacheReach.initial e1
  exact cache_transparent hinj hx r1 e2

end CacheLemmas

end PABL
